import Mathlib

/-!
Shallow embedding of the rprofiler crate (src/profiler.rs, src/block_stat.rs,
src/profiler_data.rs): the aggregator state machine over per-thread stacks and
the block-statistics tree, the report builder with its name cleanup and child
sorting, the block-guard channel sends, and the report file write.

Conventions: durations are natural numbers of nanoseconds; `f32` percentage
arithmetic is modelled by exact rationals; a Rust panic is modelled by `none`;
Unicode lower-casing is modelled for ASCII by `Char.toLower`.  The Rust tree
holds `Rc` aliases from the per-thread stacks into the tree; stacks here hold
the name path of the aliased node, which addresses the same node and stays
valid because processing never removes or renames nodes.
-/

namespace RProfiler

/-- `BlockStat` (src/block_stat.rs lines 43-48, src/profiler.rs lines 86-91):
one named region node.  `children` is kept in discovery (insertion) order;
the Rust code stores children in a map keyed by block identity and resolves
them by name. -/
inductive BlockStat : Type where
  | node : String → Nat → Nat → List BlockStat → BlockStat

def BlockStat.name : BlockStat → String
  | .node n _ _ _ => n

def BlockStat.total_time : BlockStat → Nat
  | .node _ t _ _ => t

def BlockStat.measure_count : BlockStat → Nat
  | .node _ _ c _ => c

def BlockStat.children : BlockStat → List BlockStat
  | .node _ _ _ cs => cs

/-- `BlockStat::new`: a fresh node with zeroed counters. -/
def BlockStat.new (n : String) : BlockStat := .node n 0 0 []

/-- Scalar content of a node: name, accumulated time, measure count. -/
def info (b : BlockStat) : String × Nat × Nat := (b.name, b.total_time, b.measure_count)

/-- Resolve the child with the given name (the Rust map keys compare by
string content). -/
def findChild (cs : List BlockStat) (n : String) : Option BlockStat :=
  cs.find? (fun c => c.name = n)

/-- `children.entry(name).or_insert_with(...)`: unchanged when the name is
present, otherwise a fresh zeroed node is appended. -/
def findOrCreate (cs : List BlockStat) (n : String) : List BlockStat :=
  if (findChild cs n).isSome then cs else cs ++ [BlockStat.new n]

/-- Apply `f` to the first child with the given name. -/
def updateChild (n : String) (f : BlockStat → BlockStat) : List BlockStat → List BlockStat
  | [] => []
  | c :: cs => if c.name = n then f c :: cs else c :: updateChild n f cs

/-- Apply `f` to the node addressed by the name path `p` (no change if the
path is dead). -/
def updateAt (f : BlockStat → BlockStat) : BlockStat → List String → BlockStat
  | b, [] => f b
  | .node nm t c cs, n :: p => .node nm t c (updateChild n (fun ch => updateAt f ch p) cs)

/-- The node addressed by the name path `p`, if any. -/
def nodeAt : BlockStat → List String → Option BlockStat
  | b, [] => some b
  | b, n :: p =>
    match findChild b.children n with
    | none => none
    | some c => nodeAt c p

/-- `EndBlock` charging: `total_time += time; measure_count += 1`. -/
def charge (d : Nat) : BlockStat → BlockStat
  | .node n t c cs => .node n (t + d) (c + 1) cs

def chargeAt (b : BlockStat) (p : List String) (d : Nat) : BlockStat :=
  updateAt (charge d) b p

/-- `BeginBlock` at the parent node: find-or-create the named child. -/
def addChild (n : String) : BlockStat → BlockStat
  | .node nm t c cs => .node nm t c (findOrCreate cs n)

def beginAt (b : BlockStat) (p : List String) (n : String) : BlockStat :=
  updateAt (addChild n) b p

/-- `ProfilerEvent` (src/profiler.rs lines 209-220).  Thread ids are the
`usize` values the code extracts from `ThreadId`. -/
inductive ProfilerEvent : Type where
  | beginMain : ProfilerEvent
  | endMain : Nat → ProfilerEvent
  | beginBlock : Nat → String → ProfilerEvent
  | endBlock : Nat → Nat → ProfilerEvent

/-- `ProfilerData` (src/profiler.rs lines 142-158): the statistics tree plus
the per-thread stacks.  A stack entry is the name path of the open node; the
head of the list is the top of the stack (Rust pushes/pops/reads at the same
end of the `Vec`). -/
structure ProfilerData where
  main_block : BlockStat
  blocks_stack : List (List (List String))

/-- `ProfilerData::new` -/
def ProfilerData.new : ProfilerData :=
  { main_block := .node "" 0 0 [], blocks_stack := [] }

/-- The stack of one thread (`blocks_stack[t]`, empty when out of range). -/
def threadStack (s : ProfilerData) (t : Nat) : List (List String) :=
  (s.blocks_stack[t]?).getD []

/-- `blocks_stack.resize(n, Vec::new())` when the vector is shorter. -/
def resizeTo (l : List (List (List String))) (n : Nat) : List (List (List String)) :=
  if l.length < n then l ++ List.replicate (n - l.length) [] else l

/-- One iteration of the `Profiler::process_events` loop (src/profiler.rs
lines 232-277).  `none` models a panic: `EndBlock` indexes `blocks_stack`
(panics out of range) and does `.pop().unwrap()` (panics on an empty stack). -/
def processEvent (s : ProfilerData) : ProfilerEvent → Option ProfilerData
  | .beginMain =>
    some { s with main_block :=
      (BlockStat.node "rengine::run" s.main_block.total_time s.main_block.measure_count
        s.main_block.children) }
  | .endMain time =>
    some { s with main_block :=
      (BlockStat.node s.main_block.name time 1 s.main_block.children) }
  | .beginBlock tid nm =>
    let grown := resizeTo s.blocks_stack (tid + 1)
    let tstack := (grown[tid]?).getD []
    let parent := (tstack.head?).getD []
    some { main_block := beginAt s.main_block parent nm,
           blocks_stack := grown.set tid ((parent ++ [nm]) :: tstack) }
  | .endBlock tid time =>
    match s.blocks_stack[tid]? with
    | none => none
    | some tstack =>
      match tstack with
      | [] => none
      | p :: rest =>
        some { main_block := chargeAt s.main_block p time,
               blocks_stack := s.blocks_stack.set tid rest }

/-- `Profiler::process_events`: fold the drained batch over the state. -/
def processEvents (s : ProfilerData) (evs : List ProfilerEvent) : Option ProfilerData :=
  evs.foldlM processEvent s

/-- Lower-case and strip underscores (Rust: `to_lowercase().replace("_", "")`). -/
def simplifySeg (l : List Char) : List Char :=
  (l.map Char.toLower).filter (fun c => c ≠ '_')

/-- Prepend a character to the first segment (helper for `splitSegs`). -/
def consSeg (c : Char) : List (List Char) → List (List Char)
  | [] => [[c]]
  | s :: ss => (c :: s) :: ss

/-- `str::split("::")`: cut at each leftmost, non-overlapping `"::"`. -/
def splitSegs : List Char → List (List Char)
  | [] => [[]]
  | [c] => [[c]]
  | c :: d :: rest =>
    if c = ':' ∧ d = ':' then [] :: splitSegs rest
    else consSeg c (splitSegs (d :: rest))

/-- Join segments with `"::"` (the Rust loop emits `"::" ++ part` for each
kept part and then strips one leading `"::"`, which joins the kept parts). -/
def joinSegs : List (List Char) → List Char
  | [] => []
  | [s] => s
  | s :: t :: ss => s ++ ':' :: ':' :: joinSegs (t :: ss)

/-- The de-duplication scan of `build_report_recurse` (src/block_stat.rs
lines 68-97): one left-to-right pass; when two consecutive segments are equal
after lower-casing and underscore-stripping, the earlier one is dropped and
the scan resumes after the pair. -/
def cleanParts : List (List Char) → List (List Char)
  | [] => []
  | [a] => [a]
  | a :: b :: rest =>
    if simplifySeg a = simplifySeg b then b :: cleanParts rest
    else a :: cleanParts (b :: rest)

/-- The whole report-time name cleanup. -/
def cleanName (s : String) : String :=
  ⟨joinSegs (cleanParts (splitSegs s.data))⟩

/-- `BlockStatReport` (src/block_stat.rs lines 6-12), percentages as exact
rationals. -/
inductive BlockStatReport : Type where
  | node : String → Nat → ℚ → ℚ → List BlockStatReport → BlockStatReport

def BlockStatReport.name : BlockStatReport → String
  | .node n _ _ _ _ => n

def BlockStatReport.avg_time : BlockStatReport → Nat
  | .node _ a _ _ _ => a

def BlockStatReport.global_percents : BlockStatReport → ℚ
  | .node _ _ g _ _ => g

def BlockStatReport.relative_parent_percents : BlockStatReport → ℚ
  | .node _ _ _ r _ => r

def BlockStatReport.children : BlockStatReport → List BlockStatReport
  | .node _ _ _ _ cs => cs

/-- `(x.as_secs_f32() / y.as_secs_f32()) * 100.0`, modelled exactly. -/
def percentOf (x y : Nat) : ℚ := ((x : ℚ) / (y : ℚ)) * 100

mutual
/-- `BlockStat::build_report_recurse` (src/block_stat.rs lines 64-109).
`none` models the `total_time / measure_count` panic when
`measure_count = 0` (Rust `Duration / u32` panics on a zero divisor).  The
Rust function also threads two average-time parameters that it never reads;
they are omitted. -/
def buildReport (b : BlockStat) (totalGlobal totalParent : Nat) : Option BlockStatReport :=
  match b with
  | .node nm tt cnt cs =>
    if cnt = 0 then none
    else
      match buildReportChildren cs totalGlobal tt with
      | none => none
      | some rs =>
        some (.node (cleanName nm) (tt / cnt) (percentOf tt totalGlobal)
          (percentOf tt totalParent) rs)

def buildReportChildren (cs : List BlockStat) (totalGlobal totalParent : Nat) :
    Option (List BlockStatReport) :=
  match cs with
  | [] => some []
  | c :: rest =>
    match buildReport c totalGlobal totalParent,
        buildReportChildren rest totalGlobal totalParent with
    | some r, some rs => some (r :: rs)
    | _, _ => none
end

/-- `ProfilerData::build_report_string`'s tree part (src/profiler.rs lines
195-196): the root report built with global and parent base both equal to
`main_block.total_time`. -/
def buildMainReport (s : ProfilerData) : Option BlockStatReport :=
  buildReport s.main_block s.main_block.total_time s.main_block.total_time

/-- Stable descending insertion by `relative_parent_percents`.  Rust's
`sort_by(|a, b| b.relative_parent_percents.partial_cmp(&a.relative_parent_percents))`
is a stable sort, and a stable sort's output is unique, so insertion sort
computes the same list. -/
def insertDesc (r : BlockStatReport) : List BlockStatReport → List BlockStatReport
  | [] => [r]
  | x :: xs =>
    if r.relative_parent_percents < x.relative_parent_percents then x :: insertDesc r xs
    else r :: x :: xs

/-- The child sort performed at every node during emission
(src/block_stat.rs line 34). -/
def sortChildrenDesc (l : List BlockStatReport) : List BlockStatReport :=
  l.foldr insertDesc []

mutual
/-- Pre-order rows `(depth, name, avg_time, global, parent)` of a report,
in stored child order (`build_string_recurse` without the HTML text). -/
def reportRows (d : Nat) (r : BlockStatReport) : List (Nat × String × Nat × ℚ × ℚ) :=
  match r with
  | .node nm avg g rp cs => (d, nm, avg, g, rp) :: reportRowsList (d + 1) cs

def reportRowsList (d : Nat) (cs : List BlockStatReport) :
    List (Nat × String × Nat × ℚ × ℚ) :=
  match cs with
  | [] => []
  | c :: rest => reportRows d c ++ reportRowsList d rest
end

/-- Display rounding of a percentage to two decimals (`{:6.2}`),
round-half-up. -/
def round2 (q : ℚ) : ℚ := ((⌊q * 100 + 1 / 2⌋ : ℤ) : ℚ) / 100

/-- The flume channel as seen by a sender: the queue plus whether the
receiver side is gone. -/
structure EventChannel where
  closed : Bool
  queue : List ProfilerEvent

/-- `Sender::send`: `Err` (here `none`) exactly when the channel is closed,
otherwise the event is queued. -/
def channelSend (ch : EventChannel) (e : ProfilerEvent) : Option EventChannel :=
  if ch.closed then none else some { ch with queue := ch.queue ++ [e] }

/-- `Profiler::begin_block` (src/profiler.rs lines 300-306), called by
`ProfilerBlockGuard::new`: sends and `.unwrap()`s; the overall `none` is the
unwrap panic. -/
def begin_block (ch : EventChannel) (tid : Nat) (nm : String) : Option EventChannel :=
  channelSend ch (.beginBlock tid nm)

/-- `Profiler::end_block` (src/profiler.rs lines 308-314), called by
`ProfilerBlockGuard::drop`. -/
def end_block (ch : EventChannel) (tid : Nat) (time : Nat) : Option EventChannel :=
  channelSend ch (.endBlock tid time)

/-- The fixed path `ProfilerData::save_to_file` writes to. -/
def reportFilePath : String := "./profile_info.html"

/-- `ProfilerData::save_to_file` (src/profiler.rs lines 160-162): builds the
report string and `std::fs::write("./profile_info.html", ...).unwrap()`s it.
The filesystem outcome is an input; `none` models a panic (either the report
build's division panic or the unwrapped IO error). -/
def save_to_file (s : ProfilerData) (writeResult : Except String Unit) : Option Unit :=
  match buildMainReport s with
  | none => none
  | some _ =>
    match writeResult with
    | .ok _ => some ()
    | .error _ => none

/-- Events belonging to one thread (`BeginBlock`/`EndBlock` with that id). -/
def isThreadEvent (t : Nat) : ProfilerEvent → Bool
  | .beginBlock u _ => u = t
  | .endBlock u _ => u = t
  | .beginMain => false
  | .endMain _ => false

/-- The per-thread stack automaton: how a single thread's stack evolves under
its own events alone. -/
def stackSim : List (List String) → List ProfilerEvent → Option (List (List String))
  | st, [] => some st
  | st, .beginBlock _ nm :: evs => stackSim ((((st.head?).getD []) ++ [nm]) :: st) evs
  | st, .endBlock _ _ :: evs =>
    match st with
    | [] => none
    | _ :: rest => stackSim rest evs
  | st, .beginMain :: evs => stackSim st evs
  | st, .endMain _ :: evs => stackSim st evs

/-- Sibling name lists are duplicate-free everywhere in the tree (the Rust
children maps have unique keys). -/
inductive TreeNodup : BlockStat → Prop where
  | mk : ∀ (nm : String) (t c : Nat) (cs : List BlockStat),
      (cs.map BlockStat.name).Nodup →
      (∀ x, x ∈ cs → TreeNodup x) →
      TreeNodup (BlockStat.node nm t c cs)

/-- Every node with no completed measurement is either the root or still
open on some thread's stack. -/
def OpenInv (s : ProfilerData) : Prop :=
  ∀ q nd, nodeAt s.main_block q = some nd →
    1 ≤ nd.measure_count ∨ q = [] ∨ ∃ t, q ∈ threadStack s t

theorem processEvent_endBlock_empty (s : ProfilerData) (t d : Nat)
    (h : threadStack s t = []) : processEvent s (.endBlock t d) = none := by
  have h' := h
  unfold threadStack at h'
  cases hs : s.blocks_stack[t]? with
  | none => simp [processEvent, hs]
  | some st =>
    rw [hs] at h'
    simp only [Option.getD_some] at h'
    subst h'
    simp [processEvent, hs]

/-- Claim C5: an `EndBlock` for a thread with no open frame is a fatal
assertion — the Rust code's `blocks_stack[tid].pop().unwrap()` panics (in
every build profile, which the claim permits) — and it never fabricates a
frame: no state is produced, so no node is created and no `total_time` or
`measure_count` changes. -/
theorem endBlock_empty_stack_panics (s : ProfilerData) (t d : Nat)
    (h : threadStack s t = []) : processEvent s (.endBlock t d) = none :=
  processEvent_endBlock_empty s t d h

/-- Claim C5, witness: the fresh profiler state has an empty stack for thread
0, and an `EndBlock` there panics. -/
theorem endBlock_empty_stack_panics_witness :
    threadStack ProfilerData.new 0 = [] ∧
      processEvent ProfilerData.new (.endBlock 0 5) = none :=
  ⟨rfl, endBlock_empty_stack_panics ProfilerData.new 0 5 rfl⟩

/-- Claim C6, counterexample: with the channel closed, the guard's begin and
end sends do not get silently dropped — `send(...).unwrap()` panics (`none`),
so the claim "guard construction and guard release never fail, panic, or
abort" is false at this input. -/
theorem guard_send_closed_counterexample :
    begin_block { closed := true, queue := [] } 0 "blk" = none ∧
      end_block { closed := true, queue := [] } 0 7 = none :=
  ⟨rfl, rfl⟩

/-- Claim C6, amended: while the channel is open a guard's begin/end send
succeeds and queues exactly its event; once the channel is closed, the guard
panics on the unwrapped send error instead of dropping it. -/
theorem guard_send_amended (ch : EventChannel) (tid : Nat) (nm : String) (time : Nat) :
    (ch.closed = false →
      begin_block ch tid nm =
          some ⟨false, ch.queue ++ [ProfilerEvent.beginBlock tid nm]⟩ ∧
        end_block ch tid time =
          some ⟨false, ch.queue ++ [ProfilerEvent.endBlock tid time]⟩) ∧
      (ch.closed = true →
        begin_block ch tid nm = none ∧ end_block ch tid time = none) := by
  constructor
  · intro h
    constructor <;> simp [begin_block, end_block, channelSend, h]
  · intro h
    constructor <;> simp [begin_block, end_block, channelSend, h]

/-- Claim C6, witness for the amended theorem at an open and at a closed
channel. -/
theorem guard_send_amended_witness :
    (begin_block ⟨false, []⟩ 0 "blk" = some ⟨false, [ProfilerEvent.beginBlock 0 "blk"]⟩ ∧
      end_block ⟨false, []⟩ 0 3 = some ⟨false, [ProfilerEvent.endBlock 0 3]⟩) ∧
      (begin_block ⟨true, []⟩ 0 "blk" = none ∧ end_block ⟨true, []⟩ 0 3 = none) :=
  ⟨(guard_send_amended ⟨false, []⟩ 0 "blk" 3).1 rfl,
    (guard_send_amended ⟨true, []⟩ 0 "blk" 3).2 rfl⟩

/-- Claim C7, counterexample: when the filesystem write fails,
`save_to_file` panics on the unwrapped `io::Result` (`none`) instead of
returning a recoverable error to the caller; the path is the hardcoded
`./profile_info.html`, not caller-supplied. -/
theorem save_to_file_failure_counterexample :
    save_to_file ⟨.node "" 15 1 [], []⟩ (Except.error "EACCES") = none := rfl

/-- Claim C7, amended: `save_to_file` writes the serialized report to the
fixed path `./profile_info.html`; when the write fails it panics via
`unwrap` (the failure is not surfaced as a recoverable error), and when the
write succeeds (and the report builds) it returns normally. -/
theorem save_to_file_amended (s : ProfilerData) (e : String) :
    reportFilePath = "./profile_info.html" ∧
      save_to_file s (Except.error e) = none ∧
      ((buildMainReport s).isSome → save_to_file s (Except.ok ()) = some ()) := by
  refine ⟨rfl, ?_, ?_⟩
  · unfold save_to_file
    cases buildMainReport s <;> rfl
  · intro h
    unfold save_to_file
    cases hb : buildMainReport s with
    | none => rw [hb] at h; simp at h
    | some r => simp

/-- Claim C7, witness: a state whose report builds, written successfully. -/
theorem save_to_file_amended_witness :
    save_to_file ⟨.node "" 15 1 [], []⟩ (Except.ok ()) = some () :=
  (save_to_file_amended ⟨.node "" 15 1 [], []⟩ "EACCES").2.2 (by decide)

/-- Claim C2, counterexample: processing exactly the four events
`BeginBlock(0,"outer")`, `BeginBlock(0,"inner")`, `EndBlock(0,10ms)`,
`EndBlock(0,15ms)` leaves the root with `measure_count = 0`, so building the
report panics on `total_time / measure_count` (`none`): no report containing
`outer` is produced, contrary to the claim as stated. -/
theorem report_scenario_counterexample :
    (processEvents ProfilerData.new
        [ProfilerEvent.beginBlock 0 "outer", ProfilerEvent.beginBlock 0 "inner",
          ProfilerEvent.endBlock 0 10000000, ProfilerEvent.endBlock 0 15000000]).map
        (fun s => (buildMainReport s).isSome) = some false := rfl

/-- Claim C2, amended: if the four-event scenario runs inside a measured
session — `BeginMain` first and `EndMain(15 ms)` after it, so the root's
`total_time` is 15 ms and its `measure_count` is 1 — then the report has
`outer` one level below the root with `global_percent = 100.00`,
`parent_percent = 100.00` and `avg_time = 15.0000 ms`, and `inner` exactly
one level below `outer` with both percentages `200/3` (displayed `66.67`)
and `avg_time = 10.0000 ms`.  Rows are `(depth, name, avg ns, global %,
parent %)`. -/
theorem report_scenario_amended :
    ((processEvents ProfilerData.new
          [ProfilerEvent.beginMain, ProfilerEvent.beginBlock 0 "outer",
            ProfilerEvent.beginBlock 0 "inner", ProfilerEvent.endBlock 0 10000000,
            ProfilerEvent.endBlock 0 15000000, ProfilerEvent.endMain 15000000]).bind
          buildMainReport).map (reportRows 0) =
        some [(0, "rengine::run", 15000000, percentOf 15000000 15000000,
            percentOf 15000000 15000000),
          (1, "outer", 15000000, percentOf 15000000 15000000, percentOf 15000000 15000000),
          (2, "inner", 10000000, percentOf 10000000 15000000, percentOf 10000000 15000000)] ∧
      percentOf 15000000 15000000 = 100 ∧
      percentOf 10000000 15000000 = 200 / 3 ∧
      round2 (percentOf 10000000 15000000) = 6667 / 100 ∧
      round2 (percentOf 15000000 15000000) = 100 := by
  refine ⟨rfl, ?_, ?_, ?_, ?_⟩ <;> norm_num [percentOf, round2]

/-- Claim C4, counterexample: after processing the single event
`BeginBlock(0,"a")` the tree structurally contains the node `a` with
`measure_count = 0`, and report generation is not division-safe: it panics
(`none`) on `total_time / measure_count`. -/
theorem zero_count_counterexample :
    (processEvents ProfilerData.new [ProfilerEvent.beginBlock 0 "a"]).map
        (fun s => ((nodeAt s.main_block ["a"]).map info, (buildMainReport s).isSome)) =
      some (some ("a", 0, 0), false) := rfl

@[simp] theorem bname_node (nm : String) (t c : Nat) (cs : List BlockStat) :
    (BlockStat.node nm t c cs).name = nm := rfl

@[simp] theorem btotal_node (nm : String) (t c : Nat) (cs : List BlockStat) :
    (BlockStat.node nm t c cs).total_time = t := rfl

@[simp] theorem bcount_node (nm : String) (t c : Nat) (cs : List BlockStat) :
    (BlockStat.node nm t c cs).measure_count = c := rfl

@[simp] theorem bchildren_node (nm : String) (t c : Nat) (cs : List BlockStat) :
    (BlockStat.node nm t c cs).children = cs := rfl

theorem nodeAt_cons (b : BlockStat) (n : String) (p : List String) :
    nodeAt b (n :: p) = (findChild b.children n).bind (fun c => nodeAt c p) := by
  cases h : findChild b.children n <;> simp [nodeAt, h]

theorem findChild_cons_pos (x : BlockStat) (xs : List BlockStat) (n : String)
    (h : x.name = n) : findChild (x :: xs) n = some x := by
  unfold findChild
  exact List.find?_cons_of_pos _ (by simpa using h)

theorem findChild_cons_neg (x : BlockStat) (xs : List BlockStat) (n : String)
    (h : ¬x.name = n) : findChild (x :: xs) n = findChild xs n := by
  unfold findChild
  exact List.find?_cons_of_neg _ (by simpa using h)

theorem findChild_append (cs ds : List BlockStat) (n : String) :
    findChild (cs ++ ds) n = (findChild cs n).or (findChild ds n) := by
  unfold findChild
  exact List.find?_append

theorem updateChild_of_fix (n : String) (f : BlockStat → BlockStat) :
    ∀ (cs : List BlockStat) (c : BlockStat),
      findChild cs n = some c → f c = c → updateChild n f cs = cs := by
  intro cs
  induction cs with
  | nil => intro c h _; simp [findChild] at h
  | cons x xs ih =>
    intro c h hf
    by_cases hx : x.name = n
    · rw [findChild_cons_pos x xs n hx] at h
      have hc : c = x := (Option.some.inj h).symm
      subst hc
      simp [updateChild, hx, hf]
    · rw [findChild_cons_neg x xs n hx] at h
      simp [updateChild, hx, ih c h hf]

theorem findChild_updateChild_self (n : String) (f : BlockStat → BlockStat)
    (hf : ∀ x, (f x).name = x.name) :
    ∀ cs : List BlockStat, findChild (updateChild n f cs) n = (findChild cs n).map f := by
  intro cs
  induction cs with
  | nil => simp [updateChild, findChild]
  | cons x xs ih =>
    by_cases hx : x.name = n
    · rw [findChild_cons_pos x xs n hx]
      simp only [updateChild, if_pos hx]
      rw [findChild_cons_pos _ xs n (by rw [hf]; exact hx)]
      rfl
    · rw [findChild_cons_neg x xs n hx]
      simp only [updateChild, if_neg hx]
      rw [findChild_cons_neg x _ n hx]
      exact ih

theorem findChild_updateChild_ne (n m : String) (f : BlockStat → BlockStat)
    (hf : ∀ x, (f x).name = x.name) (hnm : m ≠ n) :
    ∀ cs : List BlockStat, findChild (updateChild n f cs) m = findChild cs m := by
  intro cs
  induction cs with
  | nil => simp [updateChild]
  | cons x xs ih =>
    by_cases hx : x.name = n
    · simp only [updateChild, if_pos hx]
      rw [findChild_cons_neg _ xs m (by rw [hf, hx]; exact fun h => hnm h.symm),
        findChild_cons_neg x xs m (by rw [hx]; exact fun h => hnm h.symm)]
    · simp only [updateChild, if_neg hx]
      by_cases hm : x.name = m
      · rw [findChild_cons_pos _ _ m hm, findChild_cons_pos x xs m hm]
      · rw [findChild_cons_neg _ _ m hm, findChild_cons_neg x xs m hm]
        exact ih

theorem findChild_findOrCreate_self (cs : List BlockStat) (n : String) :
    findChild (findOrCreate cs n) n = some ((findChild cs n).getD (BlockStat.new n)) := by
  unfold findOrCreate
  cases h : findChild cs n with
  | some c => simp [h]
  | none =>
    simp only [h, Option.isSome_none, Bool.false_eq_true, if_false, Option.getD_none]
    rw [findChild_append, h, Option.none_or,
      findChild_cons_pos (BlockStat.new n) [] n rfl]

theorem findChild_findOrCreate_ne (cs : List BlockStat) (n m : String) (h : m ≠ n) :
    findChild (findOrCreate cs n) m = findChild cs m := by
  unfold findOrCreate
  cases hc : findChild cs n with
  | some c => simp [hc]
  | none =>
    simp only [hc, Option.isSome_none, Bool.false_eq_true, if_false]
    rw [findChild_append,
      findChild_cons_neg (BlockStat.new n) [] m (fun hh => h hh.symm)]
    simp [findChild]

theorem findChild_findOrCreate_found (cs : List BlockStat) (n m : String)
    (c : BlockStat) (h : findChild cs m = some c) :
    findChild (findOrCreate cs n) m = some c := by
  by_cases hm : m = n
  · subst hm
    rw [findChild_findOrCreate_self, h]
    rfl
  · rw [findChild_findOrCreate_ne cs n m hm]
    exact h

theorem updateAt_name (f : BlockStat → BlockStat) (hf : ∀ x, (f x).name = x.name) :
    ∀ (b : BlockStat) (p : List String), (updateAt f b p).name = b.name := by
  intro b p
  cases p with
  | nil => cases b with | node nm t c cs => exact hf _
  | cons m p' => cases b with | node nm t c cs => rfl

/-- Claim C3, part (i) as a standalone lemma: a `BeginBlock` whose
(parent, name) child already exists leaves the whole tree unchanged. -/
theorem beginAt_noop : ∀ (p : List String) (b : BlockStat) (n : String) (pd : BlockStat),
    nodeAt b p = some pd → (findChild pd.children n).isSome → beginAt b p n = b
  | [], b, n, pd, h, hc => by
    have hb : pd = b := by simpa [nodeAt] using h.symm
    subst hb
    cases pd with
    | node nm t c cs =>
      simp only [bchildren_node] at hc
      simp only [beginAt, updateAt, addChild, findOrCreate, hc, if_true]
  | m :: p', b, n, pd, h, hc => by
    cases b with
    | node nm t c cs =>
      rw [nodeAt_cons] at h
      simp only [bchildren_node] at h
      cases hf : findChild cs m with
      | none => rw [hf] at h; simp at h
      | some cm =>
        rw [hf] at h
        simp only [Option.some_bind] at h
        have hrec : beginAt cm p' n = cm := beginAt_noop p' cm n pd h hc
        show BlockStat.node nm t c (updateChild m (fun ch => updateAt (addChild n) ch p') cs)
            = BlockStat.node nm t c cs
        rw [updateChild_of_fix m _ cs cm hf hrec]

theorem info_nodeAt_chargeAt :
    ∀ (p : List String) (b : BlockStat) (d : Nat) (q : List String),
      (nodeAt (chargeAt b p d) q).map info =
        (nodeAt b q).map (fun nd =>
          if q = p then (nd.name, nd.total_time + d, nd.measure_count + 1) else info nd)
  | [], b, d, [] => by
    cases b with | node nm t c cs => simp [chargeAt, updateAt, charge, nodeAt, info]
  | [], b, d, k :: q' => by
    cases b with
    | node nm t c cs =>
      simp only [chargeAt, updateAt, charge]
      rw [nodeAt_cons, nodeAt_cons]
      simp only [bchildren_node]
      cases hf : findChild cs k with
      | none => simp
      | some ck => simp
  | m :: p', b, d, [] => by
    cases b with
    | node nm t c cs =>
      simp [chargeAt, updateAt, nodeAt, info]
  | m :: p', b, d, k :: q' => by
    cases b with
    | node nm t c cs =>
      have hname : ∀ x : BlockStat, (updateAt (charge d) x p').name = x.name :=
        fun x => updateAt_name (charge d) (fun y => by cases y with | node a b c e => rfl) x p'
      simp only [chargeAt, updateAt]
      rw [nodeAt_cons, nodeAt_cons]
      simp only [bchildren_node]
      by_cases hk : k = m
      · subst hk
        rw [findChild_updateChild_self k _ hname cs]
        cases hf : findChild cs k with
        | none => simp
        | some ck =>
          simp only [Option.map_some', Option.some_bind]
          have := info_nodeAt_chargeAt p' ck d q'
          simp only [chargeAt] at this
          rw [this]
          by_cases hq : q' = p'
          · simp [hq]
          · have hcons : ¬(k :: q' = k :: p') := fun h => hq (by injection h)
            simp [hq, hcons]
      · rw [findChild_updateChild_ne m k _ hname hk cs]
        cases hf : findChild cs k with
        | none => simp
        | some ck =>
          simp only [Option.some_bind]
          have hne : ¬(k :: q' = m :: p') := fun h => hk (by injection h)
          simp [hne]

theorem addChild_name (n : String) : ∀ x : BlockStat, (addChild n x).name = x.name := by
  intro x; cases x with | node a b c e => rfl

theorem charge_name (d : Nat) : ∀ x : BlockStat, (charge d x).name = x.name := by
  intro x; cases x with | node a b c e => rfl

theorem info_nodeAt_beginAt_preserved :
    ∀ (p : List String) (b : BlockStat) (n : String) (q : List String) (nd : BlockStat),
      nodeAt b q = some nd →
        ∃ nd', nodeAt (beginAt b p n) q = some nd' ∧ info nd' = info nd
  | [], b, n, [], nd, h => by
    cases b with
    | node nm t c cs =>
      have hb : nd = BlockStat.node nm t c cs := by simpa [nodeAt] using h.symm
      subst hb
      exact ⟨_, rfl, rfl⟩
  | [], b, n, k :: q', nd, h => by
    cases b with
    | node nm t c cs =>
      rw [nodeAt_cons] at h
      simp only [bchildren_node] at h
      cases hf : findChild cs k with
      | none => rw [hf] at h; simp at h
      | some ck =>
        rw [hf] at h
        simp only [Option.some_bind] at h
        refine ⟨nd, ?_, rfl⟩
        show nodeAt (BlockStat.node nm t c (findOrCreate cs n)) (k :: q') = some nd
        rw [nodeAt_cons]
        simp only [bchildren_node]
        rw [findChild_findOrCreate_found cs n k ck hf]
        simpa using h
  | m :: p', b, n, [], nd, h => by
    cases b with
    | node nm t c cs =>
      have hb : nd = BlockStat.node nm t c cs := by simpa [nodeAt] using h.symm
      subst hb
      exact ⟨_, rfl, rfl⟩
  | m :: p', b, n, k :: q', nd, h => by
    cases b with
    | node nm t c cs =>
      rw [nodeAt_cons] at h
      simp only [bchildren_node] at h
      cases hf : findChild cs k with
      | none => rw [hf] at h; simp at h
      | some ck =>
        rw [hf] at h
        simp only [Option.some_bind] at h
        have hname : ∀ x : BlockStat, (updateAt (addChild n) x p').name = x.name :=
          fun x => updateAt_name (addChild n) (addChild_name n) x p'
        by_cases hk : k = m
        · subst hk
          obtain ⟨nd', h1, h2⟩ := info_nodeAt_beginAt_preserved p' ck n q' nd h
          refine ⟨nd', ?_, h2⟩
          show nodeAt
              (BlockStat.node nm t c (updateChild k (fun ch => updateAt (addChild n) ch p') cs))
              (k :: q') = some nd'
          rw [nodeAt_cons]
          simp only [bchildren_node]
          rw [findChild_updateChild_self k _ hname cs, hf]
          simpa [beginAt] using h1
        · refine ⟨nd, ?_, rfl⟩
          show nodeAt
              (BlockStat.node nm t c (updateChild m (fun ch => updateAt (addChild n) ch p') cs))
              (k :: q') = some nd
          rw [nodeAt_cons]
          simp only [bchildren_node]
          rw [findChild_updateChild_ne m k _ hname hk cs, hf]
          simpa using h

theorem beginAt_creates :
    ∀ (p : List String) (b : BlockStat) (n : String) (pd : BlockStat),
      nodeAt b p = some pd → findChild pd.children n = none →
        nodeAt (beginAt b p n) (p ++ [n]) = some (BlockStat.new n)
  | [], b, n, pd, h, hc => by
    cases b with
    | node nm t c cs =>
      have hb : pd = BlockStat.node nm t c cs := by simpa [nodeAt] using h.symm
      subst hb
      simp only [bchildren_node] at hc
      show nodeAt (BlockStat.node nm t c (findOrCreate cs n)) ([] ++ [n])
          = some (BlockStat.new n)
      rw [List.nil_append, nodeAt_cons]
      simp only [bchildren_node]
      rw [findChild_findOrCreate_self cs n, hc]
      rfl
  | m :: p', b, n, pd, h, hc => by
    cases b with
    | node nm t c cs =>
      rw [nodeAt_cons] at h
      simp only [bchildren_node] at h
      cases hf : findChild cs m with
      | none => rw [hf] at h; simp at h
      | some cm =>
        rw [hf] at h
        simp only [Option.some_bind] at h
        have hname : ∀ x : BlockStat, (updateAt (addChild n) x p').name = x.name :=
          fun x => updateAt_name (addChild n) (addChild_name n) x p'
        show nodeAt
            (BlockStat.node nm t c (updateChild m (fun ch => updateAt (addChild n) ch p') cs))
            ((m :: p') ++ [n]) = some (BlockStat.new n)
        rw [List.cons_append, nodeAt_cons]
        simp only [bchildren_node]
        rw [findChild_updateChild_self m _ hname cs, hf]
        simp only [Option.map_some', Option.some_bind]
        exact beginAt_creates p' cm n pd h hc

theorem getD_resizeTo (l : List (List (List String))) (n i : Nat) :
    ((resizeTo l n)[i]?).getD [] = (l[i]?).getD [] := by
  unfold resizeTo
  by_cases h : l.length < n
  · rw [if_pos h, List.getElem?_append]
    by_cases hi : i < l.length
    · rw [if_pos hi]
    · rw [if_neg hi, List.getElem?_replicate]
      have hnone : l[i]? = none := by
        rw [List.getElem?_eq_none_iff]
        omega
      rw [hnone]
      by_cases h2 : i - l.length < n - l.length
      · rw [if_pos h2]
        rfl
      · rw [if_neg h2]
  · rw [if_neg h]

theorem le_length_resizeTo (l : List (List (List String))) (n : Nat) :
    n ≤ (resizeTo l n).length := by
  unfold resizeTo
  by_cases h : l.length < n
  · rw [if_pos h, List.length_append, List.length_replicate]
    omega
  · rw [if_neg h]
    omega

/-- Claim C3: two `BeginBlock`s that arrive with the same parent node and
the same name resolve to one single child node: when the child already
exists, the second `BeginBlock` leaves the tree completely unchanged (a
child is created at most once per (parent, name) pair), and each matching
`EndBlock` charges that same node, so after both completions its
`measure_count` has grown by exactly 2 and its `total_time` by the sum of
the two durations. -/
theorem child_dedup :
    (∀ (p : List String) (b : BlockStat) (n : String) (pd : BlockStat),
      nodeAt b p = some pd → (findChild pd.children n).isSome → beginAt b p n = b) ∧
      (∀ (b : BlockStat) (q : List String) (nd : BlockStat) (d1 d2 : Nat),
        nodeAt b q = some nd →
          (nodeAt (chargeAt (chargeAt b q d1) q d2) q).map info =
            some (nd.name, nd.total_time + d1 + d2, nd.measure_count + 2)) := by
  constructor
  · exact beginAt_noop
  · intro b q nd d1 d2 h
    have h1 := info_nodeAt_chargeAt q b d1 q
    simp only [eq_self_iff_true, if_true] at h1
    rw [h] at h1
    simp only [Option.map_some'] at h1
    cases h2 : nodeAt (chargeAt b q d1) q with
    | none => rw [h2] at h1; simp at h1
    | some nd1 =>
      rw [h2] at h1
      simp only [Option.map_some'] at h1
      have h3 := info_nodeAt_chargeAt q (chargeAt b q d1) d2 q
      simp only [eq_self_iff_true, if_true] at h3
      rw [h2] at h3
      simp only [Option.map_some'] at h3
      rw [h3]
      simp only [info, Option.some.injEq, Prod.mk.injEq] at h1
      simp only [Option.some.injEq, Prod.mk.injEq]
      exact ⟨h1.1, by rw [h1.2.1], by rw [h1.2.2]⟩

/-- Claim C3, witness: a root with existing child `a` (3 ns, one measure):
re-beginning `a` under the root changes nothing, and two charges of 4 ns and
5 ns bring the child to 12 ns and 3 measures. -/
theorem child_dedup_witness :
    beginAt (BlockStat.node "" 0 0 [BlockStat.node "a" 3 1 []]) [] "a"
        = BlockStat.node "" 0 0 [BlockStat.node "a" 3 1 []] ∧
      (nodeAt (chargeAt (chargeAt (BlockStat.node "" 0 0 [BlockStat.node "a" 3 1 []])
            ["a"] 4) ["a"] 5) ["a"]).map info = some ("a", 3 + 4 + 5, 1 + 2) :=
  ⟨child_dedup.1 [] _ "a" _ rfl rfl,
    child_dedup.2 _ ["a"] (BlockStat.node "a" 3 1 []) 4 5 rfl⟩

/-- Claim C10: processing `BeginBlock(t, n)` never panics; it changes no
existing node's name, `total_time` or `measure_count` anywhere in the tree;
the issuing thread's stack gains exactly one entry (the path of the resolved
child under the thread's current top, or under the root for an empty stack);
every other thread's stack is unchanged; and when the child did not yet
exist it is created with `total_time = 0` and `measure_count = 0`. -/
theorem beginBlock_effects (s : ProfilerData) (t : Nat) (n : String) :
    ∃ s', processEvent s (.beginBlock t n) = some s' ∧
      (∀ q nd, nodeAt s.main_block q = some nd →
        ∃ nd', nodeAt s'.main_block q = some nd' ∧ info nd' = info nd) ∧
      threadStack s' t = (((threadStack s t).head?).getD [] ++ [n]) :: threadStack s t ∧
      (∀ u, u ≠ t → threadStack s' u = threadStack s u) ∧
      (∀ pd, nodeAt s.main_block (((threadStack s t).head?).getD []) = some pd →
        findChild pd.children n = none →
        nodeAt s'.main_block ((((threadStack s t).head?).getD []) ++ [n]) =
          some (BlockStat.new n)) := by
  refine ⟨⟨beginAt s.main_block (((threadStack s t).head?).getD []) n,
    (resizeTo s.blocks_stack (t + 1)).set t
      ((((threadStack s t).head?).getD [] ++ [n]) :: threadStack s t)⟩, ?_, ?_, ?_, ?_, ?_⟩
  · show processEvent s (.beginBlock t n) = _
    simp only [processEvent]
    rw [getD_resizeTo]
    rfl
  · intro q nd h
    exact info_nodeAt_beginAt_preserved _ s.main_block n q nd h
  · show ((((resizeTo s.blocks_stack (t + 1)).set t _)[t]?).getD []) = _
    rw [List.getElem?_set_eq_of_lt]
    · rfl
    · have := le_length_resizeTo s.blocks_stack (t + 1)
      omega
  · intro u hu
    show ((((resizeTo s.blocks_stack (t + 1)).set t _)[u]?).getD []) = _
    rw [List.getElem?_set_ne (fun h => hu h.symm)]
    exact getD_resizeTo s.blocks_stack (t + 1) u
  · intro pd h hc
    exact beginAt_creates _ s.main_block n pd h hc

/-- Claim C10, witness: on the fresh state, `BeginBlock(0, "a")` succeeds and
creates the node `a` (fresh, zero time, zero measures) under the root. -/
theorem beginBlock_effects_witness :
    ∃ s', processEvent ProfilerData.new (.beginBlock 0 "a") = some s' ∧
      nodeAt s'.main_block ["a"] = some (BlockStat.new "a") := by
  obtain ⟨s', h1, _, _, _, h5⟩ := beginBlock_effects ProfilerData.new 0 "a"
  exact ⟨s', h1, h5 _ rfl rfl⟩

theorem processEvents_cons (s : ProfilerData) (e : ProfilerEvent)
    (evs : List ProfilerEvent) :
    processEvents s (e :: evs) = (processEvent s e).bind fun s1 => processEvents s1 evs := by
  cases h : processEvent s e with
  | none =>
    show List.foldlM processEvent s (e :: evs) = _
    rw [List.foldlM_cons, h]
    rfl
  | some s1 =>
    show List.foldlM processEvent s (e :: evs) = _
    rw [List.foldlM_cons, h]
    rfl

theorem processEvent_beginBlock_eq (s : ProfilerData) (t : Nat) (n : String) :
    processEvent s (.beginBlock t n) =
      some ⟨beginAt s.main_block (((threadStack s t).head?).getD []) n,
        (resizeTo s.blocks_stack (t + 1)).set t
          ((((threadStack s t).head?).getD [] ++ [n]) :: threadStack s t)⟩ := by
  simp only [processEvent]
  rw [getD_resizeTo]
  rfl

theorem threadStack_beginBlock_self (s s' : ProfilerData) (t : Nat) (n : String)
    (h : processEvent s (.beginBlock t n) = some s') :
    threadStack s' t = (((threadStack s t).head?).getD [] ++ [n]) :: threadStack s t := by
  rw [processEvent_beginBlock_eq] at h
  obtain rfl := Option.some.inj h
  show (((resizeTo s.blocks_stack (t + 1)).set t _)[t]?).getD [] = _
  rw [List.getElem?_set_eq_of_lt _
    (by have := le_length_resizeTo s.blocks_stack (t + 1); omega)]
  rfl

theorem threadStack_beginBlock_other (s s' : ProfilerData) (t u : Nat) (n : String)
    (h : processEvent s (.beginBlock t n) = some s') (hu : u ≠ t) :
    threadStack s' u = threadStack s u := by
  rw [processEvent_beginBlock_eq] at h
  obtain rfl := Option.some.inj h
  show (((resizeTo s.blocks_stack (t + 1)).set t _)[u]?).getD [] = _
  rw [List.getElem?_set_ne (fun hh => hu hh.symm)]
  exact getD_resizeTo s.blocks_stack (t + 1) u

theorem endBlock_step (s s' : ProfilerData) (t d : Nat)
    (h : processEvent s (.endBlock t d) = some s') :
    ∃ p rest, threadStack s t = p :: rest ∧ threadStack s' t = rest ∧
      s'.main_block = chargeAt s.main_block p d ∧
      (∀ u, u ≠ t → threadStack s' u = threadStack s u) := by
  cases hs : s.blocks_stack[t]? with
  | none => simp [processEvent, hs] at h
  | some st =>
    cases st with
    | nil => simp [processEvent, hs] at h
    | cons p rest =>
      simp only [processEvent, hs] at h
      obtain rfl := Option.some.inj h
      have ht : t < s.blocks_stack.length := by
        by_contra hlt
        rw [List.getElem?_eq_none_iff.mpr (by omega)] at hs
        exact Option.noConfusion hs
      refine ⟨p, rest, ?_, ?_, rfl, ?_⟩
      · simp [threadStack, hs]
      · show ((s.blocks_stack.set t rest)[t]?).getD [] = rest
        rw [List.getElem?_set_eq_of_lt rest ht]
        rfl
      · intro u hu
        show ((s.blocks_stack.set t rest)[u]?).getD [] = _
        rw [List.getElem?_set_ne (fun hh => hu hh.symm)]
        rfl

/-- Claim C1: per-thread attribution under arbitrary interleaving.
Part (i): a successful `EndBlock(t, d)` pops exactly the top entry of thread
`t`'s stack, charges exactly the node at that path (+d time, +1 measure,
leaving every other node's scalars untouched) and leaves every other
thread's stack unchanged.  Part (ii): for any drained batch processed from
any state, each thread's stack — whose top is by construction the path
pushed by that thread's most recent unmatched `BeginBlock` — evolves exactly
as the per-thread stack automaton run on the subsequence of that thread's
own events, independent of how events of other threads are interleaved in
the batch. -/
theorem endBlock_attribution :
    (∀ (s s' : ProfilerData) (t d : Nat), processEvent s (.endBlock t d) = some s' →
      ∃ p rest, threadStack s t = p :: rest ∧
        threadStack s' t = rest ∧
        s'.main_block = chargeAt s.main_block p d ∧
        (∀ q nd, nodeAt s.main_block q = some nd →
          (nodeAt s'.main_block q).map info =
            some (if q = p then (nd.name, nd.total_time + d, nd.measure_count + 1)
              else info nd)) ∧
        (∀ u, u ≠ t → threadStack s' u = threadStack s u)) ∧
      ∀ (evs : List ProfilerEvent) (s s' : ProfilerData),
        processEvents s evs = some s' →
        ∀ t, stackSim (threadStack s t) (evs.filter (isThreadEvent t)) =
          some (threadStack s' t) := by
  constructor
  · intro s s' t d h
    obtain ⟨p, rest, h1, h2, h3, h4⟩ := endBlock_step s s' t d h
    refine ⟨p, rest, h1, h2, h3, ?_, h4⟩
    intro q nd hq
    rw [h3, info_nodeAt_chargeAt p s.main_block d q, hq]
    by_cases hqp : q = p
    · simp [hqp]
    · simp [hqp]
  · intro evs
    induction evs with
    | nil =>
      intro s s' h t
      have hss : s = s' := by simpa [processEvents] using h
      subst hss
      rfl
    | cons e evs ih =>
      intro s s' h t
      rw [processEvents_cons] at h
      cases h1 : processEvent s e with
      | none => rw [h1] at h; simp at h
      | some s1 =>
        rw [h1, Option.some_bind] at h
        cases e with
        | beginMain =>
          simp only [processEvent] at h1
          obtain rfl := Option.some.inj h1
          rw [List.filter_cons_of_neg (by simp [isThreadEvent])]
          exact ih _ s' h t
        | endMain time =>
          simp only [processEvent] at h1
          obtain rfl := Option.some.inj h1
          rw [List.filter_cons_of_neg (by simp [isThreadEvent])]
          exact ih _ s' h t
        | beginBlock u n =>
          by_cases hut : u = t
          · subst hut
            rw [List.filter_cons_of_pos (by simp [isThreadEvent])]
            have hself := threadStack_beginBlock_self s s1 u n h1
            have hrec := ih s1 s' h u
            rw [hself] at hrec
            exact hrec
          · rw [List.filter_cons_of_neg (by simp [isThreadEvent, hut])]
            have hoth := threadStack_beginBlock_other s s1 u t n h1
              (fun hh => hut hh.symm)
            have hrec := ih s1 s' h t
            rw [hoth] at hrec
            exact hrec
        | endBlock u time =>
          by_cases hut : u = t
          · subst hut
            obtain ⟨p, rest, h2, h3, _, _⟩ := endBlock_step s s1 u time h1
            rw [List.filter_cons_of_pos (by simp [isThreadEvent]), h2]
            have hrec := ih s1 s' h u
            rw [h3] at hrec
            exact hrec
          · rw [List.filter_cons_of_neg (by simp [isThreadEvent, hut])]
            obtain ⟨p, rest, _, _, _, h5⟩ := endBlock_step s s1 u time h1
            have hrec := ih s1 s' h t
            rw [h5 t (fun hh => hut hh.symm)] at hrec
            exact hrec

/-- Claim C1, witness: a state with node `a` open on thread 0; `EndBlock(0,5)`
pops that thread's only entry and charges node `a` to 5 ns / 1 measure, and
the batch `[EndBlock(0,5)]` drives thread 0's stack exactly as the automaton
does. -/
theorem endBlock_attribution_witness :
    (∃ p rest,
      threadStack ⟨BlockStat.node "" 0 0 [BlockStat.node "a" 0 0 []], [[["a"]]]⟩ 0
          = p :: rest ∧
        threadStack ⟨BlockStat.node "" 0 0 [BlockStat.node "a" 5 1 []], [[]]⟩ 0 = rest ∧
        (BlockStat.node "" 0 0 [BlockStat.node "a" 5 1 []])
          = chargeAt (BlockStat.node "" 0 0 [BlockStat.node "a" 0 0 []]) p 5 ∧
        (∀ q nd,
          nodeAt (BlockStat.node "" 0 0 [BlockStat.node "a" 0 0 []]) q = some nd →
          (nodeAt (BlockStat.node "" 0 0 [BlockStat.node "a" 5 1 []]) q).map info =
            some (if q = p then (nd.name, nd.total_time + 5, nd.measure_count + 1)
              else info nd)) ∧
        (∀ u, u ≠ 0 →
          threadStack ⟨BlockStat.node "" 0 0 [BlockStat.node "a" 5 1 []], [[]]⟩ u
            = threadStack ⟨BlockStat.node "" 0 0 [BlockStat.node "a" 0 0 []],
                [[["a"]]]⟩ u)) ∧
      stackSim
          (threadStack ⟨BlockStat.node "" 0 0 [BlockStat.node "a" 0 0 []], [[["a"]]]⟩ 0)
          (List.filter (isThreadEvent 0) [ProfilerEvent.endBlock 0 5]) =
        some (threadStack ⟨BlockStat.node "" 0 0 [BlockStat.node "a" 5 1 []], [[]]⟩ 0) :=
  ⟨endBlock_attribution.1 ⟨BlockStat.node "" 0 0 [BlockStat.node "a" 0 0 []], [[["a"]]]⟩
      ⟨BlockStat.node "" 0 0 [BlockStat.node "a" 5 1 []], [[]]⟩ 0 5 rfl,
    endBlock_attribution.2 [ProfilerEvent.endBlock 0 5]
      ⟨BlockStat.node "" 0 0 [BlockStat.node "a" 0 0 []], [[["a"]]]⟩
      ⟨BlockStat.node "" 0 0 [BlockStat.node "a" 5 1 []], [[]]⟩ rfl 0⟩

theorem splitSegs_ne_nil : ∀ l : List Char, splitSegs l ≠ []
  | [] => by simp [splitSegs]
  | [c] => by simp [splitSegs]
  | c :: d :: rest => by
    by_cases h : c = ':' ∧ d = ':'
    · simp [splitSegs, if_pos h]
    · simp only [splitSegs, if_neg h]
      cases splitSegs (d :: rest) with
      | nil => simp [consSeg]
      | cons s ss => simp [consSeg]

theorem joinSegs_consSeg (c : Char) :
    ∀ S : List (List Char), S ≠ [] → joinSegs (consSeg c S) = c :: joinSegs S := by
  intro S hS
  cases S with
  | nil => exact absurd rfl hS
  | cons s ss =>
    cases ss with
    | nil => rfl
    | cons t ts => rfl

theorem joinSegs_splitSegs : ∀ l : List Char, joinSegs (splitSegs l) = l
  | [] => rfl
  | [c] => rfl
  | c :: d :: rest => by
    by_cases h : c = ':' ∧ d = ':'
    · obtain ⟨hc, hd⟩ := h
      subst hc
      subst hd
      simp only [splitSegs, if_pos (And.intro rfl rfl)]
      cases he : splitSegs rest with
      | nil => exact absurd he (splitSegs_ne_nil rest)
      | cons u us =>
        show joinSegs ([] :: u :: us) = _
        show [] ++ ':' :: ':' :: joinSegs (u :: us) = _
        rw [← he, joinSegs_splitSegs rest]
        rfl
    · simp only [splitSegs, if_neg h]
      rw [joinSegs_consSeg c _ (splitSegs_ne_nil (d :: rest)),
        joinSegs_splitSegs (d :: rest)]

theorem cleanParts_of_chain :
    ∀ l : List (List Char),
      List.Chain' (fun a b => simplifySeg a ≠ simplifySeg b) l → cleanParts l = l
  | [], _ => rfl
  | [a], _ => rfl
  | a :: b :: rest, h => by
    have h1 : simplifySeg a ≠ simplifySeg b := (List.chain'_cons.mp h).1
    simp only [cleanParts, if_neg h1]
    rw [cleanParts_of_chain (b :: rest) (List.chain'_cons.mp h).2]

/-- Claim C8: the report-time name cleanup splits on `"::"` and scans the
segments left to right, dropping the earlier of two consecutive segments
that are equal after lower-casing and underscore removal (the survivor is
the later segment, kept verbatim, and the scan resumes after the pair); in
particular `module::module::function` cleans to `module::function`, and any
name whose consecutive segments are all distinct after normalisation cleans
to itself. -/
theorem name_cleanup :
    cleanName "module::module::function" = "module::function" ∧
      (∀ (a b : List Char) (rest : List (List Char)),
        simplifySeg a = simplifySeg b →
          cleanParts (a :: b :: rest) = b :: cleanParts rest) ∧
      ∀ s : String,
        List.Chain' (fun a b => simplifySeg a ≠ simplifySeg b) (splitSegs s.data) →
          cleanName s = s := by
  refine ⟨by decide, ?_, ?_⟩
  · intro a b rest h
    simp only [cleanParts, if_pos h]
  · intro s h
    unfold cleanName
    rw [cleanParts_of_chain _ h, joinSegs_splitSegs]

/-- Claim C8, witness: a duplicate pair drops its earlier segment, and a
name without consecutive duplicates is unchanged. -/
theorem name_cleanup_witness :
    cleanParts ([['a'], ['a']] : List (List Char)) = [['a']] ∧
      cleanName "abc::def" = "abc::def" :=
  ⟨name_cleanup.2.1 ['a'] ['a'] [] rfl,
    name_cleanup.2.2 "abc::def" (by
      have hsplit : splitSegs "abc::def".data = [['a', 'b', 'c'], ['d', 'e', 'f']] := by
        decide
      rw [hsplit]
      exact List.chain'_cons.mpr ⟨by decide, List.chain'_singleton _⟩)⟩

theorem mem_insertDesc (r y : BlockStatReport) :
    ∀ l : List BlockStatReport, y ∈ insertDesc r l → y = r ∨ y ∈ l := by
  intro l
  induction l with
  | nil => intro h; simp [insertDesc] at h; exact Or.inl h
  | cons x xs ih =>
    intro h
    unfold insertDesc at h
    by_cases hc : r.relative_parent_percents < x.relative_parent_percents
    · rw [if_pos hc] at h
      rcases List.mem_cons.mp h with h | h
      · exact Or.inr (List.mem_cons.mpr (Or.inl h))
      · rcases ih h with h | h
        · exact Or.inl h
        · exact Or.inr (List.mem_cons.mpr (Or.inr h))
    · rw [if_neg hc] at h
      rcases List.mem_cons.mp h with h | h
      · exact Or.inl h
      · exact Or.inr h

theorem pairwise_insertDesc (r : BlockStatReport) :
    ∀ l : List BlockStatReport,
      List.Pairwise
        (fun a b => b.relative_parent_percents ≤ a.relative_parent_percents) l →
      List.Pairwise
        (fun a b => b.relative_parent_percents ≤ a.relative_parent_percents)
        (insertDesc r l) := by
  intro l
  induction l with
  | nil => intro _; simp [insertDesc]
  | cons x xs ih =>
    intro h
    rcases List.pairwise_cons.mp h with ⟨hx, hxs⟩
    unfold insertDesc
    by_cases hc : r.relative_parent_percents < x.relative_parent_percents
    · rw [if_pos hc]
      refine List.pairwise_cons.mpr ⟨?_, ih hxs⟩
      intro y hy
      rcases mem_insertDesc r y xs hy with h1 | h1
      · subst h1; exact le_of_lt hc
      · exact hx y h1
    · rw [if_neg hc]
      refine List.pairwise_cons.mpr ⟨?_, h⟩
      intro y hy
      rcases List.mem_cons.mp hy with h1 | h1
      · subst h1; exact le_of_not_lt hc
      · exact le_trans (hx y h1) (le_of_not_lt hc)

theorem filter_insertDesc (r : BlockStatReport) (q : ℚ) :
    ∀ l : List BlockStatReport,
      (insertDesc r l).filter (fun x => x.relative_parent_percents = q) =
        if r.relative_parent_percents = q
          then r :: l.filter (fun x => x.relative_parent_percents = q)
          else l.filter (fun x => x.relative_parent_percents = q) := by
  intro l
  induction l with
  | nil =>
    by_cases hr : r.relative_parent_percents = q
    · simp [insertDesc, List.filter, hr]
    · simp [insertDesc, List.filter, hr]
  | cons x xs ih =>
    unfold insertDesc
    by_cases hc : r.relative_parent_percents < x.relative_parent_percents
    · rw [if_pos hc]
      by_cases hx : x.relative_parent_percents = q
      · have hr : ¬r.relative_parent_percents = q := by
          intro hrq
          rw [hrq, ← hx] at hc
          exact lt_irrefl _ hc
        rw [List.filter_cons_of_pos (by simpa using hx), ih, if_neg hr,
          List.filter_cons_of_pos (by simpa using hx), if_neg hr]
      · rw [List.filter_cons_of_neg (by simpa using hx), ih,
          List.filter_cons_of_neg (by simpa using hx)]
    · rw [if_neg hc]
      by_cases hr : r.relative_parent_percents = q
      · rw [List.filter_cons_of_pos (by simpa using hr), if_pos hr]
      · rw [List.filter_cons_of_neg (by simpa using hr), if_neg hr]

theorem perm_insertDesc (r : BlockStatReport) :
    ∀ l : List BlockStatReport, (insertDesc r l).Perm (r :: l) := by
  intro l
  induction l with
  | nil => simp [insertDesc]
  | cons x xs ih =>
    unfold insertDesc
    by_cases hc : r.relative_parent_percents < x.relative_parent_percents
    · rw [if_pos hc]
      exact ((ih.cons x).trans (List.Perm.swap r x xs)).symm.symm
    · rw [if_neg hc]

/-- Claim C9: the child order emitted at every report node (modelled by
`sortChildrenDesc`, the unique stable sort Rust's `sort_by` computes,
recomputed at report time in `build_string_recurse`) is a permutation of the
stored children, descending in `relative_parent_percents`, and for every tie
class the emitted order equals the stored order — which is discovery order:
children are appended on first creation.  (The tie order rests on the
spec-modelled part: the `BTreeMap<usize, _>` insertion code is not in src/,
and the spec's arena design §9 keys children by sequentially allocated
handles, making map order equal discovery order.) -/
theorem children_sort_order (cs : List BlockStatReport) :
    List.Pairwise
        (fun a b => b.relative_parent_percents ≤ a.relative_parent_percents)
        (sortChildrenDesc cs) ∧
      (∀ q : ℚ,
        (sortChildrenDesc cs).filter (fun x => x.relative_parent_percents = q) =
          cs.filter (fun x => x.relative_parent_percents = q)) ∧
      (sortChildrenDesc cs).Perm cs := by
  induction cs with
  | nil => exact ⟨List.Pairwise.nil, fun q => rfl, List.Perm.refl []⟩
  | cons x xs ih =>
    refine ⟨?_, ?_, ?_⟩
    · exact pairwise_insertDesc x (sortChildrenDesc xs) ih.1
    · intro q
      show (insertDesc x (sortChildrenDesc xs)).filter _ = _
      rw [filter_insertDesc x q (sortChildrenDesc xs)]
      by_cases hx : x.relative_parent_percents = q
      · rw [if_pos hx, ih.2.1 q, List.filter_cons_of_pos (by simpa using hx)]
      · rw [if_neg hx, ih.2.1 q, List.filter_cons_of_neg (by simpa using hx)]
    · exact (perm_insertDesc x (sortChildrenDesc xs)).trans (ih.2.2.cons x)

theorem map_name_updateChild (m : String) (g : BlockStat → BlockStat)
    (hg : ∀ x, (g x).name = x.name) :
    ∀ cs : List BlockStat, (updateChild m g cs).map BlockStat.name = cs.map BlockStat.name := by
  intro cs
  induction cs with
  | nil => rfl
  | cons x xs ih =>
    unfold updateChild
    by_cases hx : x.name = m
    · rw [if_pos hx]
      simp [hg, ih]
    · rw [if_neg hx]
      simp [ih]

theorem mem_updateChild (m : String) (g : BlockStat → BlockStat) :
    ∀ (cs : List BlockStat) (x : BlockStat), x ∈ updateChild m g cs →
      x ∈ cs ∨ ∃ y, y ∈ cs ∧ x = g y := by
  intro cs
  induction cs with
  | nil => intro x h; simp [updateChild] at h
  | cons z zs ih =>
    intro x h
    unfold updateChild at h
    by_cases hz : z.name = m
    · rw [if_pos hz] at h
      rcases List.mem_cons.mp h with h | h
      · exact Or.inr ⟨z, List.mem_cons_self z zs, h⟩
      · exact Or.inl (List.mem_cons_of_mem z h)
    · rw [if_neg hz] at h
      rcases List.mem_cons.mp h with h | h
      · exact Or.inl (h ▸ List.mem_cons_self z zs)
      · rcases ih x h with h1 | ⟨y, hy, hxy⟩
        · exact Or.inl (List.mem_cons_of_mem z h1)
        · exact Or.inr ⟨y, List.mem_cons_of_mem z hy, hxy⟩

theorem treeNodup_charge (d : Nat) : ∀ x, TreeNodup x → TreeNodup (charge d x) := by
  intro x hx
  cases hx with
  | mk nm t c cs hnod hmem => exact TreeNodup.mk nm (t + d) (c + 1) cs hnod hmem

theorem findChild_eq_none_iff (cs : List BlockStat) (n : String) :
    findChild cs n = none ↔ ∀ c ∈ cs, ¬c.name = n := by
  unfold findChild
  rw [List.find?_eq_none]
  constructor
  · intro h c hc
    intro he
    exact absurd (by simpa using he) (h c hc)
  · intro h c hc
    simpa using h c hc

theorem treeNodup_new (n : String) : TreeNodup (BlockStat.new n) :=
  TreeNodup.mk n 0 0 [] List.nodup_nil (by intro x hx; simp at hx)

theorem treeNodup_addChild (n : String) : ∀ x, TreeNodup x → TreeNodup (addChild n x) := by
  intro x hx
  cases hx with
  | mk nm t c cs hnod hmem =>
    show TreeNodup (BlockStat.node nm t c (findOrCreate cs n))
    unfold findOrCreate
    cases hf : findChild cs n with
    | some _ => simpa using TreeNodup.mk nm t c cs hnod hmem
    | none =>
      simp only [Option.isSome_none, Bool.false_eq_true, if_false]
      refine TreeNodup.mk nm t c _ ?_ ?_
      · rw [List.map_append]
        refine List.Nodup.append hnod (by simp) ?_
        intro a ha hb
        simp only [List.map_cons, List.map_nil, List.mem_singleton] at hb
        rcases List.mem_map.mp ha with ⟨y, hy, hyn⟩
        exact (findChild_eq_none_iff cs n).mp hf y hy (by rw [hyn, hb]; rfl)
      · intro x hx
        rcases List.mem_append.mp hx with h | h
        · exact hmem x h
        · rw [List.mem_singleton.mp h]
          exact treeNodup_new n

theorem treeNodup_updateAt (f : BlockStat → BlockStat)
    (hname : ∀ x, (f x).name = x.name)
    (hf : ∀ x, TreeNodup x → TreeNodup (f x)) :
    ∀ (p : List String) (b : BlockStat), TreeNodup b → TreeNodup (updateAt f b p)
  | [], b, hb => by cases b with | node nm t c cs => exact hf _ hb
  | m :: p', b, hb => by
    cases hb with
    | mk nm t c cs hnod hmem =>
      show TreeNodup (BlockStat.node nm t c
        (updateChild m (fun ch => updateAt f ch p') cs))
      have hgname : ∀ x : BlockStat, (updateAt f x p').name = x.name :=
        fun x => updateAt_name f hname x p'
      refine TreeNodup.mk nm t c _ ?_ ?_
      · rw [map_name_updateChild m _ hgname cs]
        exact hnod
      · intro x hx
        rcases mem_updateChild m _ cs x hx with h | ⟨y, hy, hxy⟩
        · exact hmem x h
        · rw [hxy]
          exact treeNodup_updateAt f hname hf p' y (hmem y hy)

theorem nodeAt_beginAt_reverse :
    ∀ (p : List String) (b : BlockStat) (n : String) (q : List String) (nd' : BlockStat),
      nodeAt (beginAt b p n) q = some nd' →
        (∃ nd, nodeAt b q = some nd ∧ info nd = info nd') ∨
          (q = p ++ [n] ∧ nd' = BlockStat.new n)
  | [], b, n, [], nd', h => by
    cases b with
    | node nm t c cs =>
      have hb : nd' = BlockStat.node nm t c (findOrCreate cs n) := by
        simpa [beginAt, updateAt, addChild, nodeAt] using h.symm
      subst hb
      exact Or.inl ⟨BlockStat.node nm t c cs, rfl, rfl⟩
  | [], b, n, k :: q', nd', h => by
    cases b with
    | node nm t c cs =>
      have hun : beginAt (BlockStat.node nm t c cs) [] n
          = BlockStat.node nm t c (findOrCreate cs n) := rfl
      rw [hun, nodeAt_cons] at h
      simp only [bchildren_node] at h
      by_cases hk : k = n
      · subst hk
        rw [findChild_findOrCreate_self cs k] at h
        simp only [Option.some_bind] at h
        cases hf : findChild cs k with
        | some ck =>
          rw [hf] at h
          simp only [Option.getD_some] at h
          refine Or.inl ⟨nd', ?_, rfl⟩
          rw [nodeAt_cons]
          simp only [bchildren_node]
          rw [hf]
          simpa using h
        | none =>
          rw [hf] at h
          simp only [Option.getD_none] at h
          cases q' with
          | nil =>
            have : nd' = BlockStat.new k := by simpa [nodeAt] using h.symm
            exact Or.inr ⟨rfl, this⟩
          | cons z zs =>
            rw [nodeAt_cons] at h
            simp [BlockStat.new, findChild] at h
      · rw [findChild_findOrCreate_ne cs n k hk] at h
        cases hf : findChild cs k with
        | none => rw [hf] at h; simp at h
        | some ck =>
          rw [hf] at h
          simp only [Option.some_bind] at h
          refine Or.inl ⟨nd', ?_, rfl⟩
          rw [nodeAt_cons]
          simp only [bchildren_node]
          rw [hf]
          simpa using h
  | m :: p', b, n, [], nd', h => by
    cases b with
    | node nm t c cs =>
      have hb : nd' = BlockStat.node nm t c
          (updateChild m (fun ch => updateAt (addChild n) ch p') cs) := by
        simpa [beginAt, updateAt, nodeAt] using h.symm
      subst hb
      exact Or.inl ⟨BlockStat.node nm t c cs, rfl, rfl⟩
  | m :: p', b, n, k :: q', nd', h => by
    cases b with
    | node nm t c cs =>
      have hgname : ∀ x : BlockStat, (updateAt (addChild n) x p').name = x.name :=
        fun x => updateAt_name (addChild n) (addChild_name n) x p'
      have hun : beginAt (BlockStat.node nm t c cs) (m :: p') n
          = BlockStat.node nm t c
              (updateChild m (fun ch => updateAt (addChild n) ch p') cs) := rfl
      rw [hun, nodeAt_cons] at h
      simp only [bchildren_node] at h
      by_cases hk : k = m
      · subst hk
        rw [findChild_updateChild_self k _ hgname cs] at h
        cases hf : findChild cs k with
        | none => rw [hf] at h; simp at h
        | some ck =>
          rw [hf] at h
          simp only [Option.map_some', Option.some_bind] at h
          rcases nodeAt_beginAt_reverse p' ck n q' nd' h with ⟨nd, h1, h2⟩ | ⟨h1, h2⟩
          · refine Or.inl ⟨nd, ?_, h2⟩
            rw [nodeAt_cons]
            simp only [bchildren_node]
            rw [hf]
            simpa using h1
          · refine Or.inr ⟨?_, h2⟩
            rw [h1]
            rfl
      · rw [findChild_updateChild_ne m k _ hgname hk cs] at h
        cases hf : findChild cs k with
        | none => rw [hf] at h; simp at h
        | some ck =>
          rw [hf] at h
          simp only [Option.some_bind] at h
          refine Or.inl ⟨nd', ?_, rfl⟩
          rw [nodeAt_cons]
          simp only [bchildren_node]
          rw [hf]
          simpa using h

theorem findChild_of_mem_nodup (cs : List BlockStat) (c : BlockStat)
    (hnod : (cs.map BlockStat.name).Nodup) (hmem : c ∈ cs) :
    findChild cs c.name = some c := by
  induction cs with
  | nil => simp at hmem
  | cons x xs ih =>
    simp only [List.map_cons, List.nodup_cons] at hnod
    rcases List.mem_cons.mp hmem with h | h
    · subst h
      exact findChild_cons_pos c xs c.name rfl
    · have hx : ¬x.name = c.name := by
        intro he
        exact hnod.1 (he ▸ List.mem_map_of_mem BlockStat.name h)
      rw [findChild_cons_neg x xs c.name hx]
      exact ih hnod.2 h

theorem blockStat_strong_ind (P : BlockStat → Prop)
    (h : ∀ nm t c cs, (∀ x, x ∈ cs → P x) → P (BlockStat.node nm t c cs)) :
    ∀ b, P b := by
  have H : ∀ (k : Nat) (b : BlockStat), sizeOf b ≤ k → P b := by
    intro k
    induction k with
    | zero =>
      intro b hb
      cases b with
      | node nm t c cs =>
        simp only [BlockStat.node.sizeOf_spec] at hb
        omega
    | succ k ih =>
      intro b hb
      cases b with
      | node nm t c cs =>
        refine h nm t c cs ?_
        intro x hx
        refine ih x ?_
        have h1 := List.sizeOf_lt_of_mem hx
        simp only [BlockStat.node.sizeOf_spec] at hb
        omega
  exact fun b => H (sizeOf b) b (le_refl _)

theorem buildReportChildren_isSome (tg tp : Nat) :
    ∀ cs : List BlockStat, (∀ x, x ∈ cs → (buildReport x tg tp).isSome = true) →
      (buildReportChildren cs tg tp).isSome = true := by
  intro cs
  induction cs with
  | nil => intro _; simp [buildReportChildren]
  | cons x xs ih =>
    intro h
    have hx := h x (List.mem_cons_self x xs)
    have hxs := ih (fun y hy => h y (List.mem_cons_of_mem x hy))
    rw [buildReportChildren]
    cases hbx : buildReport x tg tp with
    | none => rw [hbx] at hx; simp at hx
    | some r =>
      cases hbxs : buildReportChildren xs tg tp with
      | none => rw [hbxs] at hxs; simp at hxs
      | some rs => simp

theorem buildReport_isSome :
    ∀ b : BlockStat, TreeNodup b →
      (∀ q nd, nodeAt b q = some nd → 1 ≤ nd.measure_count) →
      ∀ tg tp : Nat, (buildReport b tg tp).isSome = true := by
  intro b
  induction b using blockStat_strong_ind with
  | h nm t c cs IH =>
    intro hnod hcnt tg tp
    cases hnod with
    | mk _ _ _ _ hnames hmem =>
      have hc0 : ¬c = 0 := by
        have h1 := hcnt [] (BlockStat.node nm t c cs) rfl
        simp only [bcount_node] at h1
        omega
      rw [buildReport]
      rw [if_neg hc0]
      have hch : (buildReportChildren cs tg t).isSome = true := by
        apply buildReportChildren_isSome
        intro x hx
        refine IH x hx (hmem x hx) ?_ tg t
        intro q nd hq
        refine hcnt (x.name :: q) nd ?_
        rw [nodeAt_cons]
        simp only [bchildren_node]
        rw [findChild_of_mem_nodup cs x hnames hx]
        simpa using hq
      cases hb : buildReportChildren cs tg t with
      | none => rw [hb] at hch; simp at hch
      | some rs => simp

theorem treeNodup_processEvent (s s' : ProfilerData) (e : ProfilerEvent)
    (h : processEvent s e = some s') (hb : TreeNodup s.main_block) :
    TreeNodup s'.main_block := by
  cases e with
  | beginMain =>
    simp only [processEvent] at h
    obtain rfl := Option.some.inj h
    cases hm : s.main_block with
    | node nm t c cs =>
      rw [hm] at hb
      cases hb with
      | mk _ _ _ _ hnod hmem =>
        exact TreeNodup.mk "rengine::run" t c cs hnod hmem
  | endMain time =>
    simp only [processEvent] at h
    obtain rfl := Option.some.inj h
    cases hm : s.main_block with
    | node nm t c cs =>
      rw [hm] at hb
      cases hb with
      | mk _ _ _ _ hnod hmem =>
        exact TreeNodup.mk nm time 1 cs hnod hmem
  | beginBlock u n =>
    rw [processEvent_beginBlock_eq] at h
    obtain rfl := Option.some.inj h
    exact treeNodup_updateAt (addChild n) (addChild_name n) (treeNodup_addChild n)
      _ s.main_block hb
  | endBlock u time =>
    obtain ⟨p, rest, _, _, h4, _⟩ := endBlock_step s s' u time h
    rw [h4]
    exact treeNodup_updateAt (charge time) (charge_name time) (treeNodup_charge time)
      p s.main_block hb

theorem treeNodup_main_new : TreeNodup ProfilerData.new.main_block :=
  TreeNodup.mk "" 0 0 [] List.nodup_nil (by intro x hx; simp at hx)

theorem openInv_new : OpenInv ProfilerData.new := by
  intro q nd hq
  cases q with
  | nil => exact Or.inr (Or.inl rfl)
  | cons k q' =>
    rw [nodeAt_cons] at hq
    simp [ProfilerData.new, findChild] at hq

theorem openInv_processEvent (s s' : ProfilerData) (e : ProfilerEvent)
    (h : processEvent s e = some s') (hi : OpenInv s) : OpenInv s' := by
  cases e with
  | beginMain =>
    simp only [processEvent] at h
    obtain rfl := Option.some.inj h
    intro q nd hq
    cases q with
    | nil => exact Or.inr (Or.inl rfl)
    | cons k q' =>
      have hq' : nodeAt s.main_block (k :: q') = some nd := by
        rw [nodeAt_cons] at hq ⊢
        cases hm : s.main_block with
        | node nm t c cs =>
          rw [hm] at hq
          simpa using hq
      rcases hi (k :: q') nd hq' with h1 | h1 | ⟨t, h1⟩
      · exact Or.inl h1
      · exact absurd h1 (by simp)
      · exact Or.inr (Or.inr ⟨t, h1⟩)
  | endMain time =>
    simp only [processEvent] at h
    obtain rfl := Option.some.inj h
    intro q nd hq
    cases q with
    | nil => exact Or.inr (Or.inl rfl)
    | cons k q' =>
      have hq' : nodeAt s.main_block (k :: q') = some nd := by
        rw [nodeAt_cons] at hq ⊢
        cases hm : s.main_block with
        | node nm t c cs =>
          rw [hm] at hq
          simpa using hq
      rcases hi (k :: q') nd hq' with h1 | h1 | ⟨t, h1⟩
      · exact Or.inl h1
      · exact absurd h1 (by simp)
      · exact Or.inr (Or.inr ⟨t, h1⟩)
  | beginBlock u n =>
    have hb := processEvent_beginBlock_eq s u n
    rw [h] at hb
    obtain rfl := (Option.some.inj hb).symm
    intro q nd hq
    rcases nodeAt_beginAt_reverse _ s.main_block n q nd hq with ⟨nd0, h1, h2⟩ | ⟨h1, h2⟩
    · rcases hi q nd0 h1 with hc | hc | ⟨t, hc⟩
      · left
        have h3 := congrArg (fun x : String × Nat × Nat => x.2.2) h2
        simp only [info] at h3
        omega
      · exact Or.inr (Or.inl hc)
      · right
        right
        by_cases htu : t = u
        · subst htu
          refine ⟨t, ?_⟩
          rw [threadStack_beginBlock_self s _ t n (processEvent_beginBlock_eq s t n)]
          exact List.mem_cons_of_mem _ hc
        · refine ⟨t, ?_⟩
          rw [threadStack_beginBlock_other s _ u t n (processEvent_beginBlock_eq s u n) htu]
          exact hc
    · right
      right
      refine ⟨u, ?_⟩
      rw [threadStack_beginBlock_self s _ u n (processEvent_beginBlock_eq s u n), h1]
      exact List.mem_cons_self _ _
  | endBlock u time =>
    obtain ⟨p, rest, h2, h3, h4, h5⟩ := endBlock_step s s' u time h
    intro q nd hq
    rw [h4] at hq
    have heq := info_nodeAt_chargeAt p s.main_block time q
    rw [hq] at heq
    cases hq0 : nodeAt s.main_block q with
    | none => rw [hq0] at heq; simp at heq
    | some nd0 =>
      rw [hq0] at heq
      simp only [Option.map_some', Option.some.injEq] at heq
      by_cases hqp : q = p
      · left
        rw [if_pos hqp] at heq
        have h6 := congrArg (fun x : String × Nat × Nat => x.2.2) heq
        simp only [info] at h6
        omega
      · rw [if_neg hqp] at heq
        rcases hi q nd0 hq0 with hc | hc | ⟨t, hc⟩
        · left
          have h6 := congrArg (fun x : String × Nat × Nat => x.2.2) heq
          simp only [info] at h6
          omega
        · exact Or.inr (Or.inl hc)
        · right
          right
          by_cases htu : t = u
          · subst htu
            rw [h2] at hc
            rcases List.mem_cons.mp hc with hqq | hqq
            · exact absurd hqq hqp
            · exact ⟨t, by rw [h3]; exact hqq⟩
          · exact ⟨t, by rw [h5 t htu]; exact hc⟩

theorem invariants_processEvents :
    ∀ (evs : List ProfilerEvent) (s s' : ProfilerData),
      processEvents s evs = some s' → OpenInv s → TreeNodup s.main_block →
      OpenInv s' ∧ TreeNodup s'.main_block := by
  intro evs
  induction evs with
  | nil =>
    intro s s' h hi hn
    have hss : s = s' := by simpa [processEvents] using h
    subst hss
    exact ⟨hi, hn⟩
  | cons e evs ih =>
    intro s s' h hi hn
    rw [processEvents_cons] at h
    cases h1 : processEvent s e with
    | none => rw [h1] at h; simp at h
    | some s1 =>
      rw [h1, Option.some_bind] at h
      exact ih s1 s' h (openInv_processEvent s s1 e h1 hi)
        (treeNodup_processEvent s s1 e h1 hn)

/-- Claim C4, amended: report generation is division-safe only once every
node has a completed measurement.  Structurally, `BeginBlock` creates nodes
with `measure_count = 0` and the root stays at 0 until `EndMain`, and
building a report in such a state panics on `total_time / measure_count`
(see the counterexample).  Whenever processing a batch from the fresh state
succeeds and ends with every thread stack empty and the root measured
(`EndMain` processed), every structurally present node has
`measure_count ≥ 1` and the report build succeeds with no division by
zero. -/
theorem report_no_div_by_zero (evs : List ProfilerEvent) (s' : ProfilerData)
    (h : processEvents ProfilerData.new evs = some s')
    (hstacks : ∀ t, threadStack s' t = [])
    (hroot : 1 ≤ s'.main_block.measure_count) :
    (buildMainReport s').isSome = true := by
  obtain ⟨hinv, hnod⟩ :=
    invariants_processEvents evs ProfilerData.new s' h openInv_new treeNodup_main_new
  refine buildReport_isSome s'.main_block hnod ?_ _ _
  intro q nd hq
  rcases hinv q nd hq with hc | hc | ⟨t, hc⟩
  · exact hc
  · subst hc
    have hnd : nd = s'.main_block := by simpa [nodeAt] using hq.symm
    rw [hnd]
    exact hroot
  · rw [hstacks t] at hc
    simp at hc

/-- Claim C4, witness for the amended theorem: after `[EndMain 15]` the
stacks are empty and the root is measured, and the report builds. -/
theorem report_no_div_by_zero_witness :
    (buildMainReport ⟨BlockStat.node "" 15 1 [], []⟩).isSome = true :=
  report_no_div_by_zero [ProfilerEvent.endMain 15] ⟨BlockStat.node "" 15 1 [], []⟩ rfl
    (fun t => rfl) (by decide)

end RProfiler
